import Mathlib

/-!
Verification development for the deeptweet repository.

We shallowly embed the algorithmic core of the repository in Lean:

* `src/utils.ts` : `chunk` (array/string chunking) and `dot`;
* `src/utils/text.ts` : `chunkText` (sentence splitting, overlap chunking);
* `src/find-similar-sentences.ts` : `innerProduct` and `findSimilarSentences`;
* `src/deep-research.ts` : `prioritizeInsight` score parsing, the
  `researchTopic` orchestrator (visited-topic admission, per-URL analysis,
  sub-topic enqueueing) and, modelled from the spec, the bounded task queue.

JavaScript strings are modelled as `List Char`, JavaScript numbers that the
code uses as integers are modelled as `Int` (`Option Int` where `NaN` is a
reachable input, `none` standing for `NaN`), and the float vectors returned
by the embedding provider are modelled as exact integer-valued vectors (`List Int`).  External calls (search,
fetch, LLM completions, embeddings) are inputs: they appear as function
parameters or as fields of an `Oracle` structure, so every definition stays
executable.
-/

namespace DeepTweet

/-- JavaScript `Array.prototype.slice` index resolution: a negative index
counts from the end (clamped at 0), a non-negative index is clamped at the
length. -/
def jsIndex (len : Nat) (i : Int) : Nat :=
  if i < 0 then len - (-i).toNat else min i.toNat len

/-- JavaScript `arr.slice(s, e)` on a list. -/
def jsSlice (s e : Int) (l : List α) : List α :=
  (l.take (jsIndex l.length e)).drop (jsIndex l.length s)

/-- JavaScript `arr.slice(s)` (the end argument defaults to the length). -/
def jsSliceStart (s : Int) (l : List α) : List α :=
  jsSlice s (l.length : Int) l

/-- JavaScript `String.prototype.trim` on a list of characters. -/
def jsTrim (l : List Char) : List Char :=
  ((l.dropWhile Char.isWhitespace).reverse.dropWhile Char.isWhitespace).reverse

/-- A sentence-final character, as in the regex `(?<=[.!?])` of
`src/utils/text.ts`. -/
def isSentenceEnd (c : Char) : Bool :=
  c = '.' || c = '!' || c = '?'

/-- Whether the last character consumed into the current piece (stored
reversed) is sentence-final. -/
def headIsSentenceEnd : List Char → Bool
  | [] => false
  | c :: _ => isSentenceEnd c

/-- State machine for `text.split(/(?<=[.!?])\s+/)`: `acc` is the current
piece reversed, `inSep` records that we are inside a whitespace separator
run (whose first character was preceded by `[.!?]`). -/
def splitGo : List Char → List Char → Bool → List (List Char)
  | [], acc, _ => [acc.reverse]
  | c :: rest, acc, true =>
    if c.isWhitespace then splitGo rest acc true
    else splitGo rest [c] false
  | c :: rest, acc, false =>
    if c.isWhitespace && headIsSentenceEnd acc then
      acc.reverse :: splitGo rest [] true
    else splitGo rest (c :: acc) false

/-- `text.split(/(?<=[.!?])\s+/)` from `chunkText` in `src/utils/text.ts`:
split at each maximal whitespace run that is preceded by `.`, `!` or `?`. -/
def splitSentences (text : List Char) : List (List Char) :=
  splitGo text [] false

/-- The `ChunkOptions` interface of `src/utils/text.ts`. -/
structure ChunkOptions where
  maxChunks : Int
  chunkSize : Int
  minLength : Int
  overlap : Int

/-- `DEFAULT_OPTIONS` of `src/utils/text.ts`. -/
def defaultOptions : ChunkOptions :=
  { maxChunks := 100, chunkSize := 400, minLength := 50, overlap := 100 }

/-- The loop body of `chunkText`: given `(chunks, currentChunk)` and the next
segment, flush `currentChunk` when it would overflow `chunkSize` (keeping the
last `⌊overlap / 10⌋` space-separated words), then append the segment. -/
def chunkStep (opts : ChunkOptions) :
    List (List Char) × List Char → List Char → List (List Char) × List Char :=
  fun st segment =>
    let flushed :=
      if opts.chunkSize < (st.2.length : Int) + (segment.length : Int) then
        (st.1 ++ [jsTrim st.2],
          List.intercalate [' ']
            (jsSliceStart (-(Int.fdiv opts.overlap 10)) (st.2.splitOn ' ')))
      else st
    (flushed.1, flushed.2 ++ ' ' :: segment)

/-- `chunkText` of `src/utils/text.ts` before the final
`.slice(0, opts.maxChunks)`: split into sentence segments, drop segments
shorter than `minLength`, build overlapping chunks, append the trailing
chunk when non-empty, and drop chunks shorter than `minLength`. -/
def chunkTextRaw (text : List Char) (opts : ChunkOptions) : List (List Char) :=
  let segments :=
    ((splitSentences text).map jsTrim).filter
      (fun s => opts.minLength ≤ (s.length : Int))
  let built := segments.foldl (chunkStep opts) ([], [])
  let chunks :=
    if jsTrim built.2 = [] then built.1 else built.1 ++ [jsTrim built.2]
  chunks.filter (fun c => opts.minLength ≤ (c.length : Int))

/-- `chunkText` of `src/utils/text.ts`. -/
def chunkText (text : List Char) (opts : ChunkOptions) : List (List Char) :=
  jsSlice 0 opts.maxChunks (chunkTextRaw text opts)

/-- `chunk` of `src/utils.ts`.  The `chunkSize` argument is a JavaScript
number used as an integer; `none` stands for `NaN`.  A thrown `RangeError`
is modelled as `Except.error`.  `arr.slice(i * chunkSize, (i + 1) * chunkSize)`
with the non-negative in-range bounds of the loop is `drop`/`take`. -/
def chunk (arr : List α) (chunkSize : Option Int) : Except String (List (List α)) :=
  match chunkSize with
  | none => .error "RangeError"
  | some n =>
    if n < 1 then .error "RangeError"
    else if arr.length = 0 then .ok []
    else if (arr.length : Int) ≤ n then .ok [arr]
    else
      let size := n.toNat
      .ok (((List.range ((arr.length + size - 1) / size)).map
        (fun i => (arr.drop (i * size)).take size)))

/-- `dot` of `src/utils.ts`: the dot product of two equal-length vectors
(the embedding provider returns fixed-length vectors, one per input). -/
def dot (arr1 arr2 : List Int) : Int :=
  (List.zipWith (fun a b => a * b) arr1 arr2).sum

/-- `innerProduct` of `src/find-similar-sentences.ts`:
`1.0 - dot(embeddingA, embeddingB)`. -/
def innerProduct (embeddingA embeddingB : List Int) : Int :=
  1 - dot embeddingA embeddingB

/-- The `{ distance, index }` records built inside `findSimilarSentences`. -/
structure DistIdx where
  distance : Int
  index : Nat
deriving DecidableEq

/-- `sentencesEmbeddings.map((sentenceEmbedding, index) => ...)`: pair each
embedding with its position. -/
def mkEntries (queryEmbedding : List Int) : Nat → List (List Int) → List DistIdx
  | _, [] => []
  | i, e :: rest =>
    ⟨innerProduct queryEmbedding e, i⟩ :: mkEntries queryEmbedding (i + 1) rest

/-- The comparator `(a, b) => a.distance - b.distance` passed to the (stable)
JavaScript `Array.prototype.sort`: `a` is kept before `b` iff
`a.distance ≤ b.distance`. -/
def distLE (a b : DistIdx) : Prop :=
  a.distance ≤ b.distance

instance : DecidableRel distLE :=
  fun a b => inferInstanceAs (Decidable (a.distance ≤ b.distance))

/-- `findSimilarSentences` of `src/find-similar-sentences.ts`.  The batched
embedding call is the parameter `embed` (order-preserving and 1:1 with the
inputs, per the external contract).  Note the source computes
`embeddings.slice(1, inputs.length - 1)`, which drops the embedding of the
last sentence.  The stable sort is modelled by insertion sort. -/
def findSimilarSentences (embed : String → List Int) (query : String)
    (sentences : List String) (topK : Nat) : List Nat :=
  let inputs := query :: sentences
  let embeddings := inputs.map embed
  let queryEmbedding := embeddings.headD []
  let sentencesEmbeddings := jsSlice 1 ((inputs.length : Int) - 1) embeddings
  let distancesFromQuery := mkEntries queryEmbedding 0 sentencesEmbeddings
  (jsSlice 0 (topK : Int) (List.insertionSort distLE distancesFromQuery)).map
    (fun item => item.index)

/-- The distance from the query to sentence `i`, as computed inside
`findSimilarSentences` for every index it can return. -/
def sentenceDistance (embed : String → List Int) (query : String)
    (sentences : List String) (i : Nat) : Int :=
  innerProduct (embed query) ((sentences.map embed).getD i [])

/-- The numeric value of a run of leading decimal digits; `none` when the
run is empty. -/
def leadingDigits : List Char → Option Nat → Option Nat
  | c :: rest, acc =>
    if c.isDigit then
      leadingDigits rest (some ((acc.getD 0) * 10 + (c.toNat - '0'.toNat)))
    else acc
  | [], acc => acc

/-- JavaScript `parseInt(s, 10)`: skip leading whitespace, read an optional
sign and then a maximal run of decimal digits; `none` models `NaN`. -/
def parseIntJS (s : List Char) : Option Int :=
  let t := s.dropWhile Char.isWhitespace
  match t with
  | '-' :: rest => (leadingDigits rest none).map (fun n => -(n : Int))
  | '+' :: rest => (leadingDigits rest none).map (fun n => (n : Int))
  | _ => (leadingDigits t none).map (fun n => (n : Int))

/-- The score computation of `prioritizeInsight` in `src/deep-research.ts`:
`parseInt(text.trim(), 10) || 5` applied to the text returned by the scoring
call (`NaN` and `0` are falsy, so both fall back to `5`). -/
def prioritizeInsightScore (text : List Char) : Int :=
  match parseIntJS (jsTrim text) with
  | none => 5
  | some n => if n = 0 then 5 else n

/-- `MAX_TOPICS` of `src/deep-research.ts`. -/
def MAX_TOPICS : Nat := 3

/-- The `Insight` records pushed onto `researchInsights`. -/
structure Insight where
  topic : String
  summary : String
  score : Int
  url : String
deriving DecidableEq

/-- A task submitted to `researchQueue`: the closure
`() => researchTopic(newTopic, true)`. -/
structure QueueTask where
  topic : String
  isSubTopic : Bool
deriving DecidableEq

/-- The external collaborators consumed by one `researchTopic` invocation:
whether the search call succeeds, the de-duplicated URL list it yields, and
the text returned by fetching, summarizing, scoring and topic discovery. -/
structure Oracle where
  searchOk : Bool
  urls : List String
  contentOf : String → String
  summaryOf : String → String
  scoreTextOf : String → String
  topicsOf : String → List String

/-- The process-wide mutable state of `src/deep-research.ts`:
`discoveredTopics`, `researchInsights`, the tasks put on `researchQueue`,
and a log of the contents passed to `discoverNewTopics`. -/
structure GState where
  visited : Finset String
  insights : List Insight
  queue : List QueueTask
  expansionLog : List String
deriving DecidableEq

/-- The initial process state. -/
def initialState : GState :=
  { visited := ∅, insights := [], queue := [], expansionLog := [] }

/-- One iteration of the `for (const url of urls)` loop of `researchTopic`:
skip the URL when fetching yields no content, otherwise summarize, score and
append an Insight, and (root invocations only) discover new topics and
enqueue each of them as a sub-topic task. -/
def processUrl (topic : String) (isSubTopic : Bool) (o : Oracle)
    (g : GState) (url : String) : GState :=
  let content := o.contentOf url
  if content = "" then g
  else
    let summary := o.summaryOf content
    let score := prioritizeInsightScore (o.scoreTextOf summary).toList
    let g1 := { g with insights := g.insights ++ [⟨topic, summary, score, url⟩] }
    if isSubTopic then g1
    else
      { g1 with
        expansionLog := g1.expansionLog ++ [content],
        queue := g1.queue ++ (o.topicsOf content).map (fun t => ⟨t, true⟩) }

/-- One `researchTopic(topic, isSubTopic)` invocation of
`src/deep-research.ts` as a state transformer.  The admission check
`discoveredTopics.has(topic) || discoveredTopics.size >= MAX_TOPICS` and the
insertion happen with no await between them, so the invocation is modelled
as one atomic step whose later URL processing never touches the visited
set. -/
def researchTopicRun (g : GState) (topic : String) (isSubTopic : Bool)
    (o : Oracle) : GState :=
  if topic ∈ g.visited ∨ MAX_TOPICS ≤ g.visited.card then g
  else
    let g1 := { g with visited := insert topic g.visited }
    if o.searchOk then (o.urls).foldl (processUrl topic isSubTopic o) g1
    else g1

/-- An execution: any sequence of root and sub-topic invocations, each with
its own external inputs, in the order their admission checks run. -/
def runInvocations (g : GState) (invs : List (String × Bool × Oracle)) : GState :=
  invs.foldl (fun g i => researchTopicRun g i.1 i.2.1 i.2.2) g

/-- Modelled from the spec: the `BoundedTaskQueue` (the `p-queue` dependency,
whose source is not part of this repository).  A task is a state transformer
that may fail; per section 4.3 of the spec a task's thrown error is caught
and swallowed at the queue boundary, so running the queue to idle returns the
final state together with one settlement record per task (`none` = success,
`some e` = swallowed error) instead of raising. -/
def QTask (σ : Type) : Type := σ → Except String σ

/-- Modelled from the spec: settle one task against the current state and
settlement log; an error is recorded, not raised. -/
def drainStep : σ × List (Option String) → QTask σ → σ × List (Option String) :=
  fun st t =>
    match t st.1 with
    | .ok g1 => (g1, st.2 ++ [none])
    | .error e => (st.1, st.2 ++ [some e])

/-- Modelled from the spec: run every queued task in submission order;
a failing task contributes its error to the settlement log and leaves the
state to the remaining tasks. -/
def drainQueue (g : σ) (tasks : List (QTask σ)) : σ × List (Option String) :=
  tasks.foldl drainStep (g, [])

/-- The strict lexicographic order (distance, then original index) that the
stable sort of `findSimilarSentences` realises on its entries. -/
def distLex (a b : DistIdx) : Prop :=
  a.distance < b.distance ∨ (a.distance = b.distance ∧ a.index < b.index)

/-- A concrete embedding function used to evaluate the ranking code. -/
def exEmbed : String → List Int := fun s =>
  if s = "q" then [1] else if s = "a" then [3] else if s = "b" then [2] else [1]

/-- A concrete text with two long sentences, used to evaluate `chunkText`. -/
def exText : List Char :=
  String.toList
    "This is a sentence that has more than fifty characters in it, yes. Another trailing sentence that is also quite long indeed, truly."

/-- Concrete external inputs whose scoring call returns the text 42. -/
def oBadScore : Oracle :=
  { searchOk := true, urls := ["u"], contentOf := fun _ => "c",
    summaryOf := fun _ => "s", scoreTextOf := fun _ => "42",
    topicsOf := fun _ => [] }

/-- Concrete external inputs whose scoring call returns the text 7. -/
def oGoodScore : Oracle :=
  { searchOk := true, urls := ["u"], contentOf := fun _ => "c",
    summaryOf := fun _ => "s", scoreTextOf := fun _ => "7",
    topicsOf := fun _ => [] }

/-- Concrete external inputs whose topic discovery proposes one subtopic. -/
def oExpand : Oracle :=
  { searchOk := true, urls := ["u"], contentOf := fun _ => "c",
    summaryOf := fun _ => "s", scoreTextOf := fun _ => "7",
    topicsOf := fun _ => ["sub"] }

/-- A state whose visited set is already at the `MAX_TOPICS` capacity. -/
def gFull : GState :=
  { visited := {"a", "b", "c"}, insights := [], queue := [], expansionLog := [] }

/-- Chunking options with a negative `maxChunks` (otherwise the defaults). -/
def negMaxOpts : ChunkOptions :=
  { maxChunks := -1, chunkSize := 400, minLength := 50, overlap := 100 }

/-- Degenerate chunking options: `minLength = 0` and a negative `chunkSize`. -/
def degenOpts : ChunkOptions :=
  { maxChunks := 1, chunkSize := -1, minLength := 0, overlap := 0 }

/-- A concrete queue task that succeeds. -/
def exTaskOk : QTask Nat := fun n => .ok (n + 1)

/-- A concrete queue task that fails. -/
def exTaskBad : QTask Nat := fun _ => .error "boom"

/-- A second concrete queue task that succeeds. -/
def exTaskOk2 : QTask Nat := fun n => .ok (n * 2)

theorem jsSlice_nil (s e : Int) : jsSlice s e ([] : List α) = [] := by
  simp [jsSlice]

theorem jsSlice_zero_nat (k : Nat) (l : List α) : jsSlice 0 (k : Int) l = l.take k := by
  unfold jsSlice jsIndex
  have h0 : ¬ ((0 : Int) < 0) := by omega
  have h1 : ¬ ((k : Int) < 0) := by omega
  simp only [if_neg h0, if_neg h1, Int.toNat_natCast]
  have h2 : Int.toNat 0 ⊓ l.length = 0 := by simp
  rw [h2, List.drop_zero, List.take_eq_take]
  omega

theorem jsSlice_zero_nonneg (e : Int) (l : List α) (h : 0 ≤ e) :
    jsSlice 0 e l = l.take e.toNat := by
  obtain ⟨k, rfl⟩ : ∃ k : Nat, e = (k : Int) := ⟨e.toNat, (Int.toNat_of_nonneg h).symm⟩
  rw [jsSlice_zero_nat]
  simp

theorem jsTrim_eq_nil (l : List Char) (h : ∀ c ∈ l, c.isWhitespace = true) :
    jsTrim l = [] := by
  unfold jsTrim
  rw [List.dropWhile_eq_nil_iff.mpr h]
  simp

theorem splitGo_chars (l : List Char) :
    ∀ (acc : List Char) (inSep : Bool) (p : List Char) (c : Char),
      p ∈ splitGo l acc inSep → c ∈ p → c ∈ l ∨ c ∈ acc := by
  induction l with
  | nil =>
    intro acc inSep p c hp hc
    simp only [splitGo, List.mem_singleton] at hp
    subst hp
    right
    exact List.mem_reverse.mp hc
  | cons x rest ih =>
    intro acc inSep p c hp hc
    cases inSep with
    | true =>
      simp only [splitGo] at hp
      by_cases hw : x.isWhitespace
      · rw [if_pos hw] at hp
        rcases ih acc true p c hp hc with h | h
        · exact Or.inl (List.mem_cons_of_mem _ h)
        · exact Or.inr h
      · rw [if_neg hw] at hp
        rcases ih [x] false p c hp hc with h | h
        · exact Or.inl (List.mem_cons_of_mem _ h)
        · simp only [List.mem_singleton] at h
          subst h
          exact Or.inl (List.mem_cons_self _ _)
    | false =>
      simp only [splitGo] at hp
      by_cases hw : (x.isWhitespace && headIsSentenceEnd acc) = true
      · rw [if_pos hw] at hp
        rcases List.mem_cons.mp hp with h | h
        · subst h
          exact Or.inr (List.mem_reverse.mp hc)
        · rcases ih [] true p c h hc with h2 | h2
          · exact Or.inl (List.mem_cons_of_mem _ h2)
          · simp at h2
      · rw [if_neg hw] at hp
        rcases ih (x :: acc) false p c hp hc with h | h
        · exact Or.inl (List.mem_cons_of_mem _ h)
        · rcases List.mem_cons.mp h with h2 | h2
          · subst h2
            exact Or.inl (List.mem_cons_self _ _)
          · exact Or.inr h2

/-- C7: for every text and options with a non-negative `maxChunks`, the
result of `chunkText` has at most `maxChunks` segments, every returned
segment is at least `minLength` long, and the result is the earliest-first
prefix of the filtered chunk list.  (The claim as frozen quantifies over all
options; a negative `maxChunks` refutes it, see the counterexample.) -/
theorem chunkText_bounds (t : List Char) (o : ChunkOptions) (h : 0 ≤ o.maxChunks) :
    ((chunkText t o).length : Int) ≤ o.maxChunks ∧
    (∀ c ∈ chunkText t o, o.minLength ≤ (c.length : Int)) ∧
    chunkText t o = (chunkTextRaw t o).take o.maxChunks.toNat := by
  have heq : chunkText t o = (chunkTextRaw t o).take o.maxChunks.toNat :=
    jsSlice_zero_nonneg o.maxChunks (chunkTextRaw t o) h
  refine ⟨?_, ?_, heq⟩
  · rw [heq]
    have hlen : ((chunkTextRaw t o).take o.maxChunks.toNat).length ≤ o.maxChunks.toNat := by
      rw [List.length_take]; omega
    calc (((chunkTextRaw t o).take o.maxChunks.toNat).length : Int)
        ≤ (o.maxChunks.toNat : Int) := by exact_mod_cast hlen
      _ = o.maxChunks := Int.toNat_of_nonneg h
  · intro c hc
    rw [heq] at hc
    have hmem : c ∈ chunkTextRaw t o :=
      (List.take_sublist _ _).subset hc
    unfold chunkTextRaw at hmem
    have := List.of_mem_filter hmem
    simpa using this

/-- C7, counterexample to the claim as frozen: with `maxChunks = -1` the
result (the empty list) does not have length at most `maxChunks`. -/
theorem chunkText_bounds_counterexample :
    chunkText [] negMaxOpts = [] ∧
    ¬ (((chunkText [] negMaxOpts).length : Int) ≤ negMaxOpts.maxChunks) := by
  constructor
  · rfl
  · decide

theorem chunkText_bounds_witness :
    ((chunkText exText defaultOptions).length : Int) ≤ defaultOptions.maxChunks ∧
    (∀ c ∈ chunkText exText defaultOptions, defaultOptions.minLength ≤ (c.length : Int)) ∧
    chunkText exText defaultOptions =
      (chunkTextRaw exText defaultOptions).take defaultOptions.maxChunks.toNat :=
  chunkText_bounds exText defaultOptions (by decide)

/-- C8 (amended): for every all-whitespace (in particular, empty) input and
every options value whose `minLength` is at least 1 — the defaults use 50 —
`chunkText` returns the empty list.  The pure function never raises.  (The
claim as frozen quantifies over all options; `minLength = 0` together with a
negative `chunkSize` refutes it, see the counterexample.) -/
theorem chunkText_degenerate (t : List Char) (o : ChunkOptions)
    (hws : ∀ c ∈ t, c.isWhitespace = true) (hmin : 1 ≤ o.minLength) :
    chunkText t o = [] := by
  have hseg :
      ((splitSentences t).map jsTrim).filter
        (fun s => o.minLength ≤ (s.length : Int)) = [] := by
    rw [List.filter_eq_nil_iff]
    intro a ha
    rcases List.mem_map.mp ha with ⟨p, hp, hpa⟩
    have hall : ∀ c ∈ p, c.isWhitespace = true := by
      intro c hc
      rcases splitGo_chars t [] false p c hp hc with h | h
      · exact hws c h
      · simp at h
    have : a = [] := by rw [← hpa]; exact jsTrim_eq_nil p hall
    subst this
    simp only [List.length_nil, Nat.cast_zero, decide_eq_true_eq]
    omega
  unfold chunkText chunkTextRaw
  rw [show splitSentences t = splitGo t [] false from rfl] at hseg ⊢
  simp only [hseg, List.foldl_nil]
  norm_num [jsTrim, jsSlice_nil]

/-- C8, counterexample to the claim as frozen: on the empty input with
`minLength = 0` and a negative `chunkSize`, `chunkText` returns a singleton
list containing the empty string, not the empty list. -/
theorem chunkText_degenerate_counterexample :
    chunkText [] degenOpts = [[]] ∧ chunkText [] degenOpts ≠ [] := by
  constructor
  · rfl
  · decide

theorem chunkText_degenerate_witness :
    chunkText (String.toList "  \n ") defaultOptions = [] :=
  chunkText_degenerate (String.toList "  \n ") defaultOptions (by decide) (by decide)

/-- C9: whenever the text returned by the scoring call does not parse as a
number (`parseInt` gives `NaN`), `prioritizeInsight` falls back to the
default score 5; the parse never raises. -/
theorem prioritizeInsight_default (t : List Char)
    (h : parseIntJS (jsTrim t) = none) : prioritizeInsightScore t = 5 := by
  unfold prioritizeInsightScore
  rw [h]

theorem prioritizeInsight_default_witness :
    prioritizeInsightScore (String.toList "no score here") = 5 :=
  prioritizeInsight_default (String.toList "no score here") (by decide)

/-- C1 is refuted by the code: `embeddings.slice(1, inputs.length - 1)` in
`findSimilarSentences` drops the last sentence embedding, so the result has
length `min(topK, |sentences| - 1)` instead of `min(topK, |sentences|)`.
With one sentence and `topK = 1` the function returns `[]` although the
contract requires one index; with three sentences and `topK = 5` it returns
2 indices although the contract requires all 3. -/
theorem findSimilarSentences_length_bug :
    findSimilarSentences exEmbed "q" ["a"] 1 = [] ∧
    min 1 (List.length ["a"]) = 1 ∧
    (findSimilarSentences exEmbed "q" ["a", "b", "c"] 5).length = 2 ∧
    min 5 (List.length ["a", "b", "c"]) = 3 := by
  refine ⟨by decide, by decide, by decide, by decide⟩

theorem chunkPieces_flatten (size : Nat) (hs : 1 ≤ size) :
    ∀ (k : Nat) (l : List α), l.length ≤ k →
      ((List.range ((l.length + size - 1) / size)).map
        (fun i => (l.drop (i * size)).take size)).flatten = l := by
  intro k
  induction k with
  | zero =>
    intro l hl
    have hnil : l = [] := List.eq_nil_of_length_eq_zero (by omega)
    subst hnil
    have hc : (List.length ([] : List α) + size - 1) / size = 0 :=
      Nat.div_eq_of_lt (by simp; omega)
    rw [hc]
    simp
  | succ k ih =>
    intro l hl
    cases l with
    | nil =>
      have hc : (List.length ([] : List α) + size - 1) / size = 0 :=
        Nat.div_eq_of_lt (by simp; omega)
      rw [hc]
      simp
    | cons x xs =>
      have hn : (x :: xs).length = xs.length + 1 := List.length_cons x xs
      have hcount : ((x :: xs).length + size - 1) / size
          = ((x :: xs).length - 1) / size + 1 := by
        have h1 : (x :: xs).length + size - 1 = ((x :: xs).length - 1) + size := by
          omega
        rw [h1, Nat.add_div_right _ (by omega)]
      rw [hcount, List.range_succ_eq_map, List.map_cons, List.flatten_cons,
        List.map_map]
      have htail : ∀ i ∈ List.range (((x :: xs).length - 1) / size),
          ((fun i => ((x :: xs).drop (i * size)).take size) ∘ Nat.succ) i
            = ((((x :: xs).drop size).drop (i * size)).take size) := by
        intro i _
        simp only [Function.comp_apply]
        rw [List.drop_drop,
          show Nat.succ i * size = size + i * size from by rw [Nat.succ_mul]; omega]
      rw [List.map_congr_left htail]
      have hcount2 : ((x :: xs).length - 1) / size
          = ((((x :: xs).drop size).length + size - 1) / size) := by
        rw [List.length_drop]
        rcases le_or_lt size (x :: xs).length with h | h
        · congr 1
          omega
        · have h1 : (x :: xs).length - size = 0 := by omega
          have h2 : ((x :: xs).length - 1) / size = 0 := Nat.div_eq_of_lt (by omega)
          have h3 : (0 + size - 1) / size = 0 := Nat.div_eq_of_lt (by omega)
          rw [h1, h2, h3]
      rw [hcount2, ih ((x :: xs).drop size) (by rw [List.length_drop]; omega)]
      simp [List.take_append_drop]

theorem chunkPieces_getD (size : Nat) (hs : 1 ≤ size) (l : List α) (i : Nat)
    (hi : i + 1 < (l.length + size - 1) / size) :
    (((List.range ((l.length + size - 1) / size)).map
      (fun j => (l.drop (j * size)).take size)).getD i []).length = size := by
  have hic : i < (l.length + size - 1) / size := by omega
  have hgd : ((List.range ((l.length + size - 1) / size)).map
      (fun j => (l.drop (j * size)).take size)).getD i []
        = (l.drop (i * size)).take size := by
    rw [List.getD_eq_getElem?_getD, List.getElem?_map, List.getElem?_range hic]
    rfl
  rw [hgd, List.length_take, List.length_drop]
  have hlen : 1 ≤ l.length := by
    by_contra hcon
    have h0 : l.length = 0 := by omega
    have hc0 : (l.length + size - 1) / size = 0 := by
      rw [h0]
      exact Nat.div_eq_of_lt (by omega)
    omega
  have hc1 : (l.length + size - 1) / size = (l.length - 1) / size + 1 := by
    have h1 : l.length + size - 1 = (l.length - 1) + size := by omega
    rw [h1, Nat.add_div_right _ (by omega)]
  have hile : i + 1 ≤ (l.length - 1) / size := by omega
  have hmul : (i + 1) * size ≤ ((l.length - 1) / size) * size :=
    Nat.mul_le_mul_right _ hile
  have hdm : ((l.length - 1) / size) * size ≤ l.length - 1 :=
    Nat.div_mul_le_self _ _
  have hexp : (i + 1) * size = i * size + size := by ring
  omega

/-- C10: for every array and every integer chunk size of at least 1, `chunk`
partitions the array (the pieces concatenate back to the input, every piece
has length at most the chunk size, and every piece but the last has exactly
that length); for a chunk size below 1 or `NaN` it throws a `RangeError`. -/
theorem chunk_partition (arr : List α) (n : Int) :
    (1 ≤ n → ∃ pieces, chunk arr (some n) = .ok pieces ∧
        pieces.flatten = arr ∧
        (∀ p ∈ pieces, (p.length : Int) ≤ n) ∧
        (∀ i, i + 1 < pieces.length → ((pieces.getD i []).length : Int) = n)) ∧
    (n < 1 → chunk arr (some n) = .error "RangeError") ∧
    chunk arr none = .error "RangeError" := by
  refine ⟨?_, fun hlt => by simp only [chunk]; rw [if_pos hlt], rfl⟩
  · intro hn
    have hn1 : ¬ n < 1 := by omega
    by_cases h0 : arr.length = 0
    · refine ⟨[], ?_, ?_, ?_, ?_⟩
      · simp only [chunk]
        rw [if_neg hn1, if_pos h0]
      · have : arr = [] := List.eq_nil_of_length_eq_zero h0
        simp [this]
      · simp
      · intro i hi
        simp at hi
    · by_cases hle : (arr.length : Int) ≤ n
      · refine ⟨[arr], ?_, ?_, ?_, ?_⟩
        · simp only [chunk]
          rw [if_neg hn1, if_neg h0, if_pos hle]
        · simp
        · intro p hp
          simp only [List.mem_singleton] at hp
          subst hp
          exact hle
        · intro i hi
          simp only [List.length_singleton] at hi
          omega
      · have hs1 : 1 ≤ n.toNat := by omega
        have hsn : (n.toNat : Int) = n := Int.toNat_of_nonneg (by omega)
        refine ⟨(List.range ((arr.length + n.toNat - 1) / n.toNat)).map
          (fun i => (arr.drop (i * n.toNat)).take n.toNat), ?_, ?_, ?_, ?_⟩
        · simp only [chunk]
          rw [if_neg hn1, if_neg h0, if_neg hle]
        · exact chunkPieces_flatten n.toNat hs1 arr.length arr (Nat.le_refl _)
        · intro p hp
          rcases List.mem_map.mp hp with ⟨j, _, hj⟩
          have hple : p.length ≤ n.toNat := by
            rw [← hj, List.length_take]
            omega
          calc (p.length : Int) ≤ (n.toNat : Int) := by exact_mod_cast hple
            _ = n := hsn
        · intro i hi
          rw [List.length_map, List.length_range] at hi
          rw [chunkPieces_getD n.toNat hs1 arr i hi, hsn]

theorem chunk_partition_witness :
    (∃ pieces, chunk [1, 2, 3] (some 2) = .ok pieces ∧
        pieces.flatten = [1, 2, 3] ∧
        (∀ p ∈ pieces, (p.length : Int) ≤ 2) ∧
        (∀ i, i + 1 < pieces.length → ((pieces.getD i []).length : Int) = 2)) ∧
    chunk [1, 2, 3] (some 0) = .error "RangeError" :=
  ⟨(chunk_partition [1, 2, 3] 2).1 (by decide),
   (chunk_partition [1, 2, 3] 0).2.1 (by decide)⟩

theorem processUrl_visited (topic : String) (isSubTopic : Bool) (o : Oracle)
    (g : GState) (url : String) :
    (processUrl topic isSubTopic o g url).visited = g.visited := by
  unfold processUrl
  by_cases h : o.contentOf url = ""
  · rw [if_pos h]
  · rw [if_neg h]
    dsimp only
    split <;> rfl

theorem foldl_processUrl_visited (topic : String) (isSubTopic : Bool) (o : Oracle) :
    ∀ (urls : List String) (g : GState),
      (urls.foldl (processUrl topic isSubTopic o) g).visited = g.visited := by
  intro urls
  induction urls with
  | nil => intro g; rfl
  | cons u rest ih =>
    intro g
    rw [List.foldl_cons, ih, processUrl_visited]

theorem researchTopicRun_card (g : GState) (topic : String) (isSubTopic : Bool)
    (o : Oracle) (h : g.visited.card ≤ MAX_TOPICS) :
    (researchTopicRun g topic isSubTopic o).visited.card ≤ MAX_TOPICS := by
  unfold researchTopicRun
  by_cases hadm : topic ∈ g.visited ∨ MAX_TOPICS ≤ g.visited.card
  · rw [if_pos hadm]
    exact h
  · rw [if_neg hadm]
    rcases not_or.mp hadm with ⟨h1, h2⟩
    have hcard : g.visited.card < MAX_TOPICS := by omega
    have hins : (insert topic g.visited).card ≤ g.visited.card + 1 :=
      Finset.card_insert_le _ _
    dsimp only
    by_cases hok : o.searchOk
    · rw [if_pos hok, foldl_processUrl_visited]
      dsimp only
      omega
    · rw [if_neg hok]
      dsimp only
      omega

/-- C2: along every execution (any interleaving of root and sub-topic
invocations, each admission being atomic since the check-then-insert has no
suspension point) the visited-topic set never exceeds `MAX_TOPICS`; and an
invocation arriving when the set is at capacity returns with the state
completely unchanged: nothing is added, enqueued, or logged. -/
theorem topic_budget :
    (∀ invs : List (String × Bool × Oracle),
        (runInvocations initialState invs).visited.card ≤ MAX_TOPICS) ∧
    (∀ (g : GState) (topic : String) (isSubTopic : Bool) (o : Oracle),
        MAX_TOPICS ≤ g.visited.card → researchTopicRun g topic isSubTopic o = g) := by
  constructor
  · have hgen : ∀ (invs : List (String × Bool × Oracle)) (g : GState),
        g.visited.card ≤ MAX_TOPICS →
        (runInvocations g invs).visited.card ≤ MAX_TOPICS := by
      intro invs
      induction invs with
      | nil => intro g h; exact h
      | cons i rest ih =>
        intro g h
        exact ih _ (researchTopicRun_card g i.1 i.2.1 i.2.2 h)
    intro invs
    exact hgen invs initialState (by simp [initialState, MAX_TOPICS])
  · intro g topic isSubTopic o h
    unfold researchTopicRun
    rw [if_pos (Or.inr h)]

theorem topic_budget_witness :
    (runInvocations initialState
      [("a", false, oExpand), ("b", true, oExpand), ("c", false, oExpand),
       ("d", true, oExpand)]).visited.card ≤ MAX_TOPICS ∧
    researchTopicRun gFull "x" false oExpand = gFull :=
  ⟨topic_budget.1 _, topic_budget.2 gFull "x" false oExpand (by decide)⟩

theorem processUrl_sub (topic : String) (o : Oracle) (g : GState) (url : String) :
    (processUrl topic true o g url).queue = g.queue ∧
    (processUrl topic true o g url).expansionLog = g.expansionLog := by
  unfold processUrl
  by_cases h : o.contentOf url = ""
  · rw [if_pos h]
    exact ⟨rfl, rfl⟩
  · rw [if_neg h]
    exact ⟨rfl, rfl⟩

theorem foldl_processUrl_sub (topic : String) (o : Oracle) :
    ∀ (urls : List String) (g : GState),
      (urls.foldl (processUrl topic true o) g).queue = g.queue ∧
      (urls.foldl (processUrl topic true o) g).expansionLog = g.expansionLog := by
  intro urls
  induction urls with
  | nil => intro g; exact ⟨rfl, rfl⟩
  | cons u rest ih =>
    intro g
    rw [List.foldl_cons]
    rcases ih (processUrl topic true o g u) with ⟨hq, he⟩
    rcases processUrl_sub topic o g u with ⟨hq2, he2⟩
    exact ⟨hq.trans hq2, he.trans he2⟩

theorem processUrl_queue_mem (topic : String) (isSubTopic : Bool) (o : Oracle)
    (g : GState) (url : String) (task : QueueTask)
    (h : task ∈ (processUrl topic isSubTopic o g url).queue) :
    task ∈ g.queue ∨ task.isSubTopic = true := by
  unfold processUrl at h
  by_cases hc : o.contentOf url = ""
  · rw [if_pos hc] at h
    exact Or.inl h
  · rw [if_neg hc] at h
    dsimp only at h
    by_cases hs : isSubTopic
    · rw [if_pos hs] at h
      exact Or.inl h
    · rw [if_neg hs] at h
      dsimp only at h
      rcases List.mem_append.mp h with h2 | h2
      · exact Or.inl h2
      · rcases List.mem_map.mp h2 with ⟨t, _, ht⟩
        subst ht
        exact Or.inr rfl

theorem foldl_processUrl_queue_mem (topic : String) (isSubTopic : Bool) (o : Oracle) :
    ∀ (urls : List String) (g : GState) (task : QueueTask),
      task ∈ (urls.foldl (processUrl topic isSubTopic o) g).queue →
      task ∈ g.queue ∨ task.isSubTopic = true := by
  intro urls
  induction urls with
  | nil => intro g task h; exact Or.inl h
  | cons u rest ih =>
    intro g task h
    rw [List.foldl_cons] at h
    rcases ih (processUrl topic isSubTopic o g u) task h with h2 | h2
    · exact processUrl_queue_mem topic isSubTopic o g u task h2
    · exact Or.inr h2

/-- C5: a sub-topic invocation (`isSubTopic = true`) never calls the
topic-discovery step and never enqueues further tasks; and every task any
invocation enqueues is marked as a sub-topic, so recursive expansion has
depth exactly one. -/
theorem sub_topic_no_expansion :
    (∀ (g : GState) (topic : String) (o : Oracle),
        (researchTopicRun g topic true o).queue = g.queue ∧
        (researchTopicRun g topic true o).expansionLog = g.expansionLog) ∧
    (∀ (g : GState) (topic : String) (isSubTopic : Bool) (o : Oracle)
        (task : QueueTask),
        task ∈ (researchTopicRun g topic isSubTopic o).queue →
        task ∈ g.queue ∨ task.isSubTopic = true) := by
  constructor
  · intro g topic o
    unfold researchTopicRun
    by_cases hadm : topic ∈ g.visited ∨ MAX_TOPICS ≤ g.visited.card
    · rw [if_pos hadm]
      exact ⟨rfl, rfl⟩
    · rw [if_neg hadm]
      dsimp only
      by_cases hok : o.searchOk
      · rw [if_pos hok]
        exact foldl_processUrl_sub topic o o.urls _
      · rw [if_neg hok]
        exact ⟨rfl, rfl⟩
  · intro g topic isSubTopic o task h
    unfold researchTopicRun at h
    by_cases hadm : topic ∈ g.visited ∨ MAX_TOPICS ≤ g.visited.card
    · rw [if_pos hadm] at h
      exact Or.inl h
    · rw [if_neg hadm] at h
      dsimp only at h
      by_cases hok : o.searchOk
      · rw [if_pos hok] at h
        exact foldl_processUrl_queue_mem topic isSubTopic o o.urls
          { g with visited := insert topic g.visited } task h
      · rw [if_neg hok] at h
        exact Or.inl h

theorem sub_topic_no_expansion_witness :
    ((researchTopicRun initialState "root" true oExpand).queue = initialState.queue ∧
      (researchTopicRun initialState "root" true oExpand).expansionLog =
        initialState.expansionLog) ∧
    ((⟨"sub", true⟩ : QueueTask) ∈ initialState.queue ∨
      (⟨"sub", true⟩ : QueueTask).isSubTopic = true) :=
  ⟨sub_topic_no_expansion.1 initialState "root" oExpand,
   sub_topic_no_expansion.2 initialState "root" false oExpand ⟨"sub", true⟩
     (by decide)⟩

theorem prioritize_range (o : Oracle)
    (h : ∀ (s : String) (n : Int),
      parseIntJS (jsTrim (o.scoreTextOf s).toList) = some n →
      n = 0 ∨ (1 ≤ n ∧ n ≤ 10))
    (s : String) :
    1 ≤ prioritizeInsightScore (o.scoreTextOf s).toList ∧
    prioritizeInsightScore (o.scoreTextOf s).toList ≤ 10 := by
  unfold prioritizeInsightScore
  cases hp : parseIntJS (jsTrim (o.scoreTextOf s).toList) with
  | none =>
    show 1 ≤ (5 : Int) ∧ (5 : Int) ≤ 10
    exact ⟨by omega, by omega⟩
  | some n =>
    show 1 ≤ (if n = 0 then (5 : Int) else n) ∧ (if n = 0 then (5 : Int) else n) ≤ 10
    by_cases hne : n = 0
    · rw [if_pos hne]
      exact ⟨by omega, by omega⟩
    · rw [if_neg hne]
      rcases h s n hp with h0 | hrange
      · exact absurd h0 hne
      · exact hrange

theorem processUrl_insights_mem (o : Oracle)
    (h : ∀ (s : String) (n : Int),
      parseIntJS (jsTrim (o.scoreTextOf s).toList) = some n →
      n = 0 ∨ (1 ≤ n ∧ n ≤ 10))
    (topic : String) (isSubTopic : Bool) (g : GState) (url : String)
    (ins : Insight) (hm : ins ∈ (processUrl topic isSubTopic o g url).insights) :
    ins ∈ g.insights ∨ (1 ≤ ins.score ∧ ins.score ≤ 10) := by
  unfold processUrl at hm
  by_cases hc : o.contentOf url = ""
  · rw [if_pos hc] at hm
    exact Or.inl hm
  · rw [if_neg hc] at hm
    dsimp only at hm
    have hm2 : ins ∈ g.insights ++
        [⟨topic, o.summaryOf (o.contentOf url),
          prioritizeInsightScore (o.scoreTextOf (o.summaryOf (o.contentOf url))).toList,
          url⟩] := by
      by_cases hs : isSubTopic
      · rwa [if_pos hs] at hm
      · rwa [if_neg hs] at hm
    rcases List.mem_append.mp hm2 with h2 | h2
    · exact Or.inl h2
    · rw [List.mem_singleton] at h2
      subst h2
      exact Or.inr (prioritize_range o h _)

theorem foldl_processUrl_insights_mem (o : Oracle)
    (h : ∀ (s : String) (n : Int),
      parseIntJS (jsTrim (o.scoreTextOf s).toList) = some n →
      n = 0 ∨ (1 ≤ n ∧ n ≤ 10))
    (topic : String) (isSubTopic : Bool) :
    ∀ (urls : List String) (g : GState) (ins : Insight),
      ins ∈ (urls.foldl (processUrl topic isSubTopic o) g).insights →
      ins ∈ g.insights ∨ (1 ≤ ins.score ∧ ins.score ≤ 10) := by
  intro urls
  induction urls with
  | nil => intro g ins hm; exact Or.inl hm
  | cons u rest ih =>
    intro g ins hm
    rw [List.foldl_cons] at hm
    rcases ih (processUrl topic isSubTopic o g u) ins hm with h2 | h2
    · exact processUrl_insights_mem o h topic isSubTopic g u ins h2
    · exact Or.inr h2

/-- C6 (amended): every Insight an invocation appends has its score produced
by `parseInt(text) || 5`; whenever every text the scoring call can return
either fails to parse, parses to 0, or parses to an integer in `[1, 10]`,
every appended Insight has `1 ≤ score ≤ 10`.  (The claim as frozen
quantifies over every possible scoring text; an unconstrained text such as
42 refutes it, see the counterexample.) -/
theorem insight_score_range (g : GState) (topic : String) (isSubTopic : Bool)
    (o : Oracle)
    (h : ∀ (s : String) (n : Int),
      parseIntJS (jsTrim (o.scoreTextOf s).toList) = some n →
      n = 0 ∨ (1 ≤ n ∧ n ≤ 10)) :
    ∀ ins ∈ (researchTopicRun g topic isSubTopic o).insights,
      ins ∈ g.insights ∨ (1 ≤ ins.score ∧ ins.score ≤ 10) := by
  intro ins hm
  unfold researchTopicRun at hm
  by_cases hadm : topic ∈ g.visited ∨ MAX_TOPICS ≤ g.visited.card
  · rw [if_pos hadm] at hm
    exact Or.inl hm
  · rw [if_neg hadm] at hm
    dsimp only at hm
    by_cases hok : o.searchOk
    · rw [if_pos hok] at hm
      exact foldl_processUrl_insights_mem o h topic isSubTopic o.urls
        { g with visited := insert topic g.visited } ins hm
    · rw [if_neg hok] at hm
      exact Or.inl hm

/-- C6, counterexample to the claim as frozen: when the scoring call returns
the text 42, the appended Insight has score 42, outside `[1, 10]`. -/
theorem insight_score_counterexample :
    (researchTopicRun initialState "t" false oBadScore).insights =
      [⟨"t", "s", 42, "u"⟩] ∧
    ¬ ((42 : Int) ≤ 10) := by
  constructor
  · rfl
  · decide

theorem insight_score_range_witness :
    (⟨"t", "s", 7, "u"⟩ : Insight) ∈ initialState.insights ∨
      (1 ≤ (⟨"t", "s", 7, "u"⟩ : Insight).score ∧
        (⟨"t", "s", 7, "u"⟩ : Insight).score ≤ 10) :=
  insight_score_range initialState "t" false oGoodScore
    (fun s n hn => by
      rw [show parseIntJS (jsTrim (oGoodScore.scoreTextOf s).toList) = some 7
        from rfl] at hn
      injection hn with h7
      omega)
    ⟨"t", "s", 7, "u"⟩ (by decide)

theorem drainQueue_shift :
    ∀ (ts : List (QTask σ)) (g : σ) (log : List (Option String)),
      ts.foldl drainStep (g, log)
        = ((drainQueue g ts).1, log ++ (drainQueue g ts).2) := by
  intro ts
  induction ts with
  | nil =>
    intro g log
    simp [drainQueue]
  | cons t ts ih =>
    intro g log
    cases ht : t g with
    | ok g1 =>
      have hstep : ∀ lg : List (Option String),
          drainStep (g, lg) t = (g1, lg ++ [none]) := by
        intro lg
        simp [drainStep, ht]
      have hrhs : drainQueue g (t :: ts)
          = ((drainQueue g1 ts).1, [none] ++ (drainQueue g1 ts).2) := by
        unfold drainQueue
        rw [List.foldl_cons, hstep ([] : List (Option String)),
          ih g1 ([] ++ [none])]
        simp
        exact ⟨rfl, rfl⟩
      rw [List.foldl_cons, hstep log, ih g1 (log ++ [none]), hrhs]
      simp
    | error e =>
      have hstep : ∀ lg : List (Option String),
          drainStep (g, lg) t = (g, lg ++ [some e]) := by
        intro lg
        simp [drainStep, ht]
      have hrhs : drainQueue g (t :: ts)
          = ((drainQueue g ts).1, [some e] ++ (drainQueue g ts).2) := by
        unfold drainQueue
        rw [List.foldl_cons, hstep ([] : List (Option String)),
          ih g ([] ++ [some e])]
        simp
        exact ⟨rfl, rfl⟩
      rw [List.foldl_cons, hstep log, ih g (log ++ [some e]), hrhs]
      simp

theorem drainQueue_cons (t : QTask σ) (ts : List (QTask σ)) (g : σ) :
    drainQueue g (t :: ts)
      = ((drainQueue (drainStep (g, []) t).1 ts).1,
         (drainStep (g, []) t).2 ++ (drainQueue (drainStep (g, []) t).1 ts).2) := by
  rw [show drainQueue g (t :: ts) = ts.foldl drainStep (drainStep (g, []) t)
      from rfl]
  rw [show drainStep (g, []) t = ((drainStep (g, []) t).1, (drainStep (g, []) t).2)
      from rfl]
  rw [drainQueue_shift]

theorem drainQueue_length : ∀ (ts : List (QTask σ)) (g : σ),
    (drainQueue g ts).2.length = ts.length := by
  intro ts
  induction ts with
  | nil => intro g; rfl
  | cons t ts ih =>
    intro g
    rw [drainQueue_cons]
    cases ht : t g with
    | ok g1 =>
      simp [drainStep, ht, ih]
    | error e =>
      simp [drainStep, ht, ih]

theorem drainQueue_append (g : σ) (as bs : List (QTask σ)) :
    drainQueue g (as ++ bs)
      = ((drainQueue (drainQueue g as).1 bs).1,
         (drainQueue g as).2 ++ (drainQueue (drainQueue g as).1 bs).2) := by
  unfold drainQueue
  rw [List.foldl_append]
  rw [show as.foldl drainStep (g, ([] : List (Option String)))
      = ((as.foldl drainStep (g, [])).1, (as.foldl drainStep (g, [])).2) from rfl]
  rw [drainQueue_shift]
  rfl

/-- C4 (spec-modelled queue): draining returns one settlement per enqueued
task — every already-enqueued task runs to settlement and the drain itself
never raises — and a task that throws is swallowed at the queue boundary:
the final state is the same as if the sibling tasks had run without it. -/
theorem queue_fault_isolation :
    (∀ (σ : Type) (g : σ) (tasks : List (QTask σ)),
        (drainQueue g tasks).2.length = tasks.length) ∧
    (∀ (σ : Type) (g : σ) (pre post : List (QTask σ)) (t : QTask σ) (e : String),
        t (drainQueue g pre).1 = .error e →
        (drainQueue g (pre ++ t :: post)).1 = (drainQueue g (pre ++ post)).1) := by
  constructor
  · intro σ g tasks
    exact drainQueue_length tasks g
  · intro σ g pre post t e ht
    rw [drainQueue_append g pre (t :: post), drainQueue_append g pre post]
    rw [drainQueue_cons]
    have hstep : drainStep ((drainQueue g pre).1, ([] : List (Option String))) t
        = ((drainQueue g pre).1, [some e]) := by
      simp [drainStep, ht]
    rw [hstep]

theorem queue_fault_isolation_witness :
    (drainQueue (0 : Nat) [exTaskOk, exTaskBad, exTaskOk2]).2.length = 3 ∧
    (drainQueue (0 : Nat) ([exTaskOk] ++ exTaskBad :: [exTaskOk2])).1 =
      (drainQueue (0 : Nat) ([exTaskOk] ++ [exTaskOk2])).1 :=
  ⟨queue_fault_isolation.1 Nat 0 [exTaskOk, exTaskBad, exTaskOk2],
   queue_fault_isolation.2 Nat 0 [exTaskOk] [exTaskOk2] exTaskBad "boom" rfl⟩

theorem mkEntries_le_index (qe : List Int) :
    ∀ (l : List (List Int)) (k : Nat) (e : DistIdx),
      e ∈ mkEntries qe k l → k ≤ e.index := by
  intro l
  induction l with
  | nil =>
    intro k e h
    simp [mkEntries] at h
  | cons x rest ih =>
    intro k e h
    simp only [mkEntries, List.mem_cons] at h
    rcases h with h | h
    · subst h
      exact Nat.le_refl k
    · have := ih (k + 1) e h
      omega

theorem mkEntries_pairwise (qe : List Int) :
    ∀ (l : List (List Int)) (k : Nat),
      List.Pairwise (fun a b => a.index < b.index) (mkEntries qe k l) := by
  intro l
  induction l with
  | nil =>
    intro k
    simp [mkEntries]
  | cons x rest ih =>
    intro k
    simp only [mkEntries]
    rw [List.pairwise_cons]
    refine ⟨?_, ih (k + 1)⟩
    intro e he
    have := mkEntries_le_index qe rest (k + 1) e he
    show k < e.index
    omega

theorem mkEntries_spec (qe : List Int) :
    ∀ (l : List (List Int)) (k : Nat) (e : DistIdx), e ∈ mkEntries qe k l →
      e.distance = innerProduct qe (l.getD (e.index - k) []) ∧
      e.index - k < l.length := by
  intro l
  induction l with
  | nil =>
    intro k e h
    simp [mkEntries] at h
  | cons x rest ih =>
    intro k e h
    simp only [mkEntries, List.mem_cons] at h
    rcases h with h | h
    · subst h
      refine ⟨?_, ?_⟩
      · show innerProduct qe x = innerProduct qe ((x :: rest).getD (k - k) [])
        rw [Nat.sub_self]
        rfl
      · show k - k < (x :: rest).length
        rw [Nat.sub_self]
        simp
    · have hk := mkEntries_le_index qe rest (k + 1) e h
      rcases ih (k + 1) e h with ⟨hd, hlt⟩
      have hidx : e.index - k = (e.index - (k + 1)) + 1 := by omega
      refine ⟨?_, ?_⟩
      · rw [hidx, List.getD_cons_succ]
        exact hd
      · simp only [List.length_cons]
        omega

theorem orderedInsert_pairwise_lex (x : DistIdx) :
    ∀ (l : List DistIdx), List.Pairwise distLex l → (∀ y ∈ l, x.index < y.index) →
      List.Pairwise distLex (List.orderedInsert distLE x l) := by
  intro l
  induction l with
  | nil =>
    intro _ _
    simp [List.orderedInsert]
  | cons b l ih =>
    intro hp hidx
    rcases List.pairwise_cons.mp hp with ⟨hb, hp2⟩
    simp only [List.orderedInsert]
    by_cases hxb : distLE x b
    · rw [if_pos hxb]
      rw [List.pairwise_cons]
      refine ⟨?_, hp⟩
      intro z hz
      have hxb2 : x.distance ≤ b.distance := hxb
      rcases List.mem_cons.mp hz with hz | hz
      · rw [hz]
        rcases lt_or_eq_of_le hxb2 with h | h
        · exact Or.inl h
        · exact Or.inr ⟨h, hidx b (List.mem_cons_self b l)⟩
      · have hbz := hb z hz
        have hbd : b.distance ≤ z.distance := by
          rcases hbz with h | h
          · exact le_of_lt h
          · exact le_of_eq h.1
        rcases lt_or_eq_of_le (le_trans hxb2 hbd) with h | h
        · exact Or.inl h
        · exact Or.inr ⟨h, hidx z (List.mem_cons_of_mem b hz)⟩
    · rw [if_neg hxb]
      rw [List.pairwise_cons]
      have hbx : b.distance < x.distance := by
        have : ¬ x.distance ≤ b.distance := hxb
        omega
      refine ⟨?_, ih hp2 (fun y hy => hidx y (List.mem_cons_of_mem b hy))⟩
      intro z hz
      rcases (List.mem_orderedInsert distLE).mp hz with hz | hz
      · subst hz
        exact Or.inl hbx
      · exact hb z hz

theorem insertionSort_pairwise_lex :
    ∀ (l : List DistIdx), List.Pairwise (fun a b => a.index < b.index) l →
      List.Pairwise distLex (List.insertionSort distLE l) := by
  intro l
  induction l with
  | nil =>
    intro _
    simp [List.insertionSort]
  | cons x l ih =>
    intro hp
    rcases List.pairwise_cons.mp hp with ⟨hx, hp2⟩
    show List.Pairwise distLex
      (List.orderedInsert distLE x (List.insertionSort distLE l))
    exact orderedInsert_pairwise_lex x _ (ih hp2)
      (fun y hy => hx y (((List.perm_insertionSort distLE l).mem_iff).mp hy))

theorem sentencesEmbeddings_eq (embed : String → List Int) (query : String)
    (sentences : List String) :
    jsSlice 1 (((query :: sentences).length : Int) - 1) ((query :: sentences).map embed)
      = (sentences.map embed).take (sentences.length - 1) := by
  cases sentences with
  | nil => rfl
  | cons s ss =>
    unfold jsSlice jsIndex
    have hlenmap : ((query :: s :: ss).map embed).length = ss.length + 2 := by
      simp
    have he1 : (((query :: s :: ss).length : Nat) : Int) - 1
        = ((ss.length + 1 : Nat) : Int) := by
      simp only [List.length_cons]
      push_cast
      ring
    rw [he1, hlenmap]
    have h2 : ¬ (((ss.length + 1 : Nat) : Int) < 0) := by omega
    have h3 : ¬ ((1 : Int) < 0) := by omega
    rw [if_neg h2, if_neg h3]
    simp only [Int.toNat_natCast, Int.toNat_one]
    have h4 : min (ss.length + 1) (ss.length + 2) = ss.length + 1 := by omega
    have h5 : min 1 (ss.length + 2) = 1 := by omega
    rw [h4, h5]
    show ((embed query :: embed s :: ss.map embed).take (ss.length + 1)).drop 1
        = (embed s :: ss.map embed).take ((s :: ss).length - 1)
    rw [List.take_succ_cons]
    simp

theorem findSimilarSentences_eq (embed : String → List Int) (query : String)
    (sentences : List String) (topK : Nat) :
    findSimilarSentences embed query sentences topK
      = ((List.insertionSort distLE
          (mkEntries (embed query) 0
            ((sentences.map embed).take (sentences.length - 1)))).take topK).map
        (fun item => item.index) := by
  unfold findSimilarSentences
  dsimp only
  rw [jsSlice_zero_nat, sentencesEmbeddings_eq]
  rfl

/-- C3: the ranking is ordered: between any two positions of the result, the
earlier one has a strictly smaller distance to the query, or the same
distance and a smaller original index (the JavaScript sort is stable, so
ties keep their original relative order). -/
theorem findSimilarSentences_ordered (embed : String → List Int) (query : String)
    (sentences : List String) (topK p q : Nat)
    (hpq : p < q)
    (hq : q < (findSimilarSentences embed query sentences topK).length) :
    sentenceDistance embed query sentences
        ((findSimilarSentences embed query sentences topK).getD p 0) <
      sentenceDistance embed query sentences
        ((findSimilarSentences embed query sentences topK).getD q 0) ∨
    (sentenceDistance embed query sentences
        ((findSimilarSentences embed query sentences topK).getD p 0) =
      sentenceDistance embed query sentences
        ((findSimilarSentences embed query sentences topK).getD q 0) ∧
      (findSimilarSentences embed query sentences topK).getD p 0 <
        (findSimilarSentences embed query sentences topK).getD q 0) := by
  have hreq := findSimilarSentences_eq embed query sentences topK
  set entries := mkEntries (embed query) 0
    ((sentences.map embed).take (sentences.length - 1)) with hent
  set sorted := List.insertionSort distLE entries with hsort
  set r := findSimilarSentences embed query sentences topK with hr
  have hlen : r.length = (sorted.take topK).length := by
    rw [hreq, List.length_map]
  have hq2 : q < (sorted.take topK).length := by omega
  have hp2 : p < (sorted.take topK).length := by omega
  have hlex : List.Pairwise distLex sorted :=
    insertionSort_pairwise_lex entries (mkEntries_pairwise (embed query) _ 0)
  have hpl : List.Pairwise distLex (sorted.take topK) :=
    List.Pairwise.sublist (List.take_sublist topK sorted) hlex
  have hrel : distLex ((sorted.take topK)[p]) ((sorted.take topK)[q]) :=
    List.pairwise_iff_getElem.mp hpl p q hp2 hq2 hpq
  have hgp : r.getD p 0 = ((sorted.take topK)[p]).index := by
    rw [hreq, List.getD_eq_getElem?_getD, List.getElem?_map,
      List.getElem?_eq_getElem hp2]
    rfl
  have hgq : r.getD q 0 = ((sorted.take topK)[q]).index := by
    rw [hreq, List.getD_eq_getElem?_getD, List.getElem?_map,
      List.getElem?_eq_getElem hq2]
    rfl
  have hmem : ∀ (i : Nat) (hi : i < (sorted.take topK).length),
      ((sorted.take topK)[i]) ∈ entries := by
    intro i hi
    have h1 : (sorted.take topK)[i] ∈ sorted.take topK := List.getElem_mem hi
    have h2 : (sorted.take topK)[i] ∈ sorted :=
      (List.take_sublist topK sorted).subset h1
    exact ((List.perm_insertionSort distLE entries).mem_iff).mp h2
  have hdist : ∀ e ∈ entries,
      e.distance = sentenceDistance embed query sentences e.index := by
    intro e he
    rcases mkEntries_spec (embed query) _ 0 e he with ⟨hd, hlt⟩
    rw [Nat.sub_zero] at hd hlt
    have hidx : e.index < sentences.length - 1 := by
      rw [List.length_take, List.length_map] at hlt
      omega
    have hgetd : (((sentences.map embed).take (sentences.length - 1)).getD e.index [])
        = ((sentences.map embed).getD e.index []) := by
      rw [List.getD_eq_getElem?_getD, List.getD_eq_getElem?_getD,
        List.getElem?_take, if_pos hidx]
    unfold sentenceDistance
    rw [hd, hgetd]
  have h1 := hdist _ (hmem p hp2)
  have h2 := hdist _ (hmem q hq2)
  rw [hgp, hgq, ← h1, ← h2]
  exact hrel

theorem findSimilarSentences_ordered_witness :
    sentenceDistance exEmbed "q" ["a", "b", "c"]
        ((findSimilarSentences exEmbed "q" ["a", "b", "c"] 5).getD 0 0) <
      sentenceDistance exEmbed "q" ["a", "b", "c"]
        ((findSimilarSentences exEmbed "q" ["a", "b", "c"] 5).getD 1 0) ∨
    (sentenceDistance exEmbed "q" ["a", "b", "c"]
        ((findSimilarSentences exEmbed "q" ["a", "b", "c"] 5).getD 0 0) =
      sentenceDistance exEmbed "q" ["a", "b", "c"]
        ((findSimilarSentences exEmbed "q" ["a", "b", "c"] 5).getD 1 0) ∧
      (findSimilarSentences exEmbed "q" ["a", "b", "c"] 5).getD 0 0 <
        (findSimilarSentences exEmbed "q" ["a", "b", "c"] 5).getD 1 0) :=
  findSimilarSentences_ordered exEmbed "q" ["a", "b", "c"] 5 0 1 (by decide) (by decide)

end DeepTweet
